import Mathlib

/-!
Verification development for the typedai agent runtime.

This file gives a shallow embedding, in Lean, of the components of the
repository that the checked properties talk about:

* the Firestore-backed LLM call store with transparent message chunking
  (`src/modules/firestore/firestoreLlmCallService.ts`),
* the merge-request review fingerprint cache and the GitLab code-review
  pipeline (`FirestoreCodeReviewService`, `GitLabCodeReview`),
* the Firestore-backed agent state store
  (`src/modules/firestore/firestoreAgentStateService.ts`),
* the composite fallback LLM (`FastMediumLLM`) and the ambient user
  context (`src/user/userService/userContext.ts`).

Stateful code is embedded by explicit state passing: a Firestore
collection is a list of key/document pairs, a batched write is a pure
function from store to store, and fallible code returns `Except`.
JavaScript `Buffer.byteLength(JSON.stringify(x))` size estimation is
embedded by carrying the serialized byte size of the opaque parts of a
document (message payloads, metadata fields) as data and computing the
size of the fixed JSON skeletons around them explicitly.
-/

/-! ## LLM call store: documents, sizes and the chunking write path -/

/-- Firestore document size limit used by the service (slightly under 1 MiB);
`MAX_DOC_SIZE` in `firestoreLlmCallService.ts`. -/
def MAX_DOC_SIZE : Nat := 1000000

/-- An `LlmMessage` as the call store sees it: an opaque payload.  `content`
gives the message an identity; `size` is the byte size of
`JSON.stringify(message)`, which is the only other aspect of a message the
store inspects (via `estimateSize`). -/
structure LlmMessage where
  content : String
  size : Nat
deriving DecidableEq, Repr

/-- Number of characters `JSON.stringify` prints for a natural number. -/
def digitsLen (n : Nat) : Nat := (Nat.toDigits 10 n).length

/-- Serialized size of the JSON array holding a list of messages: two
brackets, the messages themselves, and a comma between consecutive ones. -/
def messagesArraySize (msgs : List LlmMessage) : Nat :=
  2 + (msgs.map (fun m => m.size)).sum + (msgs.length - 1)

/-- Model of `estimateSize` applied to a chunk document
with fields `llmCallId` (a string), `chunkIndex` (a number) and
`messages` (an array): the 42 bytes of the fixed JSON skeleton
(braces, the three quoted field names, colons, commas and the quotes
around the id value) plus the variable parts. -/
def chunkDocJsonSize (llmCallId : String) (chunkIndex : Nat) (msgs : List LlmMessage) : Nat :=
  42 + llmCallId.utf8ByteSize + digitsLen chunkIndex + messagesArraySize msgs

/-- The non-`messages`, non-`id` fields of an `LlmCall` as persisted
(`dataToSave` in the source): the `llmCallId` field plus the remaining
metadata (`llmId`, `requestTime`, `cost`, tokens, ...), which the store
treats as opaque.  `metaSize` is the serialized byte size of those
remaining key/value pairs (with their separating commas) and `meta` gives
them an identity. -/
structure LlmCallBase where
  llmCallId : String
  metaSize : Nat
  meta : String
deriving DecidableEq, Repr

/-- Model of `estimateSize` applied to the spread of `dataToSave` and
`messages` into one head document: the fixed skeleton around the
`llmCallId` string field and the `messages` array field (29 bytes) plus
the variable parts. -/
def headDocJsonSize (base : LlmCallBase) (msgs : List LlmMessage) : Nat :=
  29 + base.llmCallId.utf8ByteSize + base.metaSize + messagesArraySize msgs

/-- A document path in the `LlmCall` collection.  The source builds the
string paths `LlmCall/<llmCallId>` for head documents and
`LlmCall/<llmCallId>-<chunkIndex>` for chunk documents; the service's ids
are UUIDs, for which this flattening is injective, so paths are embedded
as a structured key. -/
inductive LlmDocPath where
  | head (llmCallId : String)
  | chunk (llmCallId : String) (idx : Nat)
deriving DecidableEq, Repr

/-- A document stored in the `LlmCall` collection.  Every field is
optional, mirroring Firestore documents where a field is either present
or absent; head documents carry `llmCallId`, `chunkCount`, the metadata
and (when small enough) `messages`, chunk documents carry `llmCallId`,
`chunkIndex` and `messages`. -/
structure LlmDoc where
  llmCallId : Option String
  chunkIndex : Option Nat
  chunkCount : Option Nat
  messages : Option (List LlmMessage)
  base : Option LlmCallBase
deriving DecidableEq, Repr

/-- The `LlmCall` collection: a list of path/document pairs.  Writes keep
at most one document per path. -/
abbrev LlmStore := List (LlmDocPath × LlmDoc)

/-- Look up the document at a path. -/
def getDoc (store : LlmStore) (path : LlmDocPath) : Option LlmDoc :=
  (store.find? (fun e => e.1 == path)).map (fun e => e.2)

/-- Firestore merge semantics at the granularity of this document model:
fields present in the new data overwrite, fields absent in the new data
are kept from the old document. -/
def mergeDoc (new old : LlmDoc) : LlmDoc where
  llmCallId := new.llmCallId.orElse (fun _ => old.llmCallId)
  chunkIndex := new.chunkIndex.orElse (fun _ => old.chunkIndex)
  chunkCount := new.chunkCount.orElse (fun _ => old.chunkCount)
  messages := new.messages.orElse (fun _ => old.messages)
  base := new.base.orElse (fun _ => old.base)

/-- Model of `docRef.set(data, merge)`: overwrite (or merge into) the
document at the path, appending a fresh document when the path is new. -/
def setDoc (store : LlmStore) (path : LlmDocPath) (doc : LlmDoc) (merge : Bool) : LlmStore :=
  match getDoc store path with
  | none => store ++ [(path, doc)]
  | some _ =>
    store.map (fun e =>
      if e.1 == path then (e.1, if merge then mergeDoc doc e.2 else doc) else e)

/-- Error surfaced by the write path: a single message too large for a
chunk document (`MessageTooLarge` in the specification's terms). -/
inductive LlmSaveError where
  | messageTooLarge
deriving DecidableEq, Repr

/-- The greedy packing loop of `_saveOrUpdateLlmCall` (lines 122-153 of the
source): walk the messages keeping a current chunk; when adding the next
message would reach `MAX_DOC_SIZE` and the current chunk is non-empty,
flush it and start a new chunk with that message; flush the last chunk if
non-empty.  Returns the list of (chunkIndex, messages) pairs in flush
order. -/
def packChunksGo (llmCallId : String) :
    List LlmMessage → Nat → List LlmMessage → List (Nat × List LlmMessage) →
    List (Nat × List LlmMessage)
  | [], idx, current, acc =>
    if current.isEmpty then acc else acc ++ [(idx, current)]
  | m :: rest, idx, current, acc =>
    let potential := chunkDocJsonSize llmCallId idx (current ++ [m])
    if MAX_DOC_SIZE ≤ potential ∧ ¬ current.isEmpty then
      packChunksGo llmCallId rest (idx + 1) [m] (acc ++ [(idx, current)])
    else
      packChunksGo llmCallId rest idx (current ++ [m]) acc

/-- Entry point of the packing loop: chunk indices start at 1 with an
empty current chunk. -/
def packChunks (llmCallId : String) (messages : List LlmMessage) : List (Nat × List LlmMessage) :=
  packChunksGo llmCallId messages 1 [] []

/-- The head document written in the single-document case:
all of `dataToSave`, the messages, and `chunkCount = 0`. -/
def singleHeadDoc (base : LlmCallBase) (messages : List LlmMessage) : LlmDoc where
  llmCallId := some base.llmCallId
  chunkIndex := none
  chunkCount := some 0
  messages := some messages
  base := some base

/-- The head document written in the chunked case: all of `dataToSave`,
no `messages` field, and the final chunk count. -/
def chunkedHeadDoc (base : LlmCallBase) (chunkCount : Nat) : LlmDoc where
  llmCallId := some base.llmCallId
  chunkIndex := none
  chunkCount := some chunkCount
  messages := none
  base := none

/-- A chunk document: `llmCallId`, `chunkIndex` and its slice of the
messages. -/
def chunkDoc (llmCallId : String) (idx : Nat) (msgs : List LlmMessage) : LlmDoc where
  llmCallId := some llmCallId
  chunkIndex := some idx
  chunkCount := none
  messages := some msgs
  base := none

/-- Model of `_saveOrUpdateLlmCall`: estimate the size of the whole
record; below the limit, write a single head document; otherwise check
every message fits a chunk document (fail with `messageTooLarge` before
anything is written), greedily pack the messages and commit the chunk
documents and the head document in one batch. -/
def saveOrUpdateLlmCall (store : LlmStore) (llmCallId : String) (base : LlmCallBase)
    (messages : List LlmMessage) (merge : Bool) : Except LlmSaveError LlmStore :=
  if headDocJsonSize base messages < MAX_DOC_SIZE then
    .ok (setDoc store (.head llmCallId) (singleHeadDoc base messages) merge)
  else if messages.any (fun m => MAX_DOC_SIZE < chunkDocJsonSize llmCallId 1 [m]) then
    .error .messageTooLarge
  else
    .ok (setDoc
      ((packChunks llmCallId messages).foldl
        (fun s c => setDoc s (.chunk llmCallId c.1) (chunkDoc llmCallId c.1 c.2) false) store)
      (.head llmCallId)
      (chunkedHeadDoc base (packChunks llmCallId messages).length) merge)

/-- An `LlmCall` as handed to `saveResponse`: its `id`, the optional
`llmCallId` field, the messages, and the remaining metadata abstracted as
in `LlmCallBase`. -/
structure LlmCall where
  id : String
  llmCallId : Option String
  metaSize : Nat
  meta : String
  messages : List LlmMessage
deriving DecidableEq, Repr

/-- Model of `saveResponse`: key on `llmCall.llmCallId ?? llmCall.id`,
build `dataToSave` from the non-message fields with `llmCallId` set
explicitly, and delegate to the helper with merge semantics. -/
def saveResponse (store : LlmStore) (call : LlmCall) : Except LlmSaveError LlmStore :=
  saveOrUpdateLlmCall store (call.llmCallId.getD call.id)
    { llmCallId := call.llmCallId.getD call.id, metaSize := call.metaSize, meta := call.meta }
    call.messages true

/-- The record `deserialize` produces, projected to the fields the checked
properties mention. -/
structure LlmCallRecord where
  id : String
  messages : List LlmMessage
  chunkCount : Nat
  llmCallId : String
deriving DecidableEq, Repr

/-- The `chunkIndex` of a document, defaulting to 0 when the field is
absent (as `data.chunkIndex ?? 0` and the `chunkIndex > 0` query filter
treat it). -/
def chunkIndexOf (d : LlmDoc) : Nat := d.chunkIndex.getD 0

/-- Model of `getCall`: read the head document; when `chunkCount` is 0
return it directly, otherwise query every document whose `llmCallId`
field matches and whose `chunkIndex` is positive, in ascending
`chunkIndex` order, and concatenate their message arrays. -/
def getCall (store : LlmStore) (llmCallId : String) : Option LlmCallRecord :=
  match getDoc store (.head llmCallId) with
  | none => none
  | some mainData =>
    let chunkCount := mainData.chunkCount.getD 0
    let callIdFromData := mainData.llmCallId.getD llmCallId
    if chunkCount == 0 then
      some { id := llmCallId, messages := mainData.messages.getD [],
             chunkCount := chunkCount, llmCallId := callIdFromData }
    else
      let chunkDocs := (store.filter (fun e =>
        e.2.llmCallId == some callIdFromData && 0 < chunkIndexOf e.2)).map (fun e => e.2)
      let sorted := chunkDocs.mergeSort (fun a b => chunkIndexOf a ≤ chunkIndexOf b)
      let allMessages := sorted.flatMap (fun d => d.messages.getD [])
      some { id := llmCallId, messages := allMessages,
             chunkCount := chunkCount, llmCallId := callIdFromData }

/-- Model of `delete(llmCallId)`: batch-delete every document whose
`llmCallId` field matches; when that query is empty but a document sits
at the head path, delete that head document alone. -/
def deleteLlmCall (store : LlmStore) (llmCallId : String) : LlmStore :=
  if (store.filter (fun e => e.2.llmCallId == some llmCallId)).isEmpty then
    match getDoc store (.head llmCallId) with
    | some _ => store.filter (fun e => e.1 != LlmDocPath.head llmCallId)
    | none => store
  else
    store.filter (fun e => e.2.llmCallId != some llmCallId)

/-! ## Code review engine: the shape check of `reviewDiff` and the
fingerprint cache flow of `reviewMergeRequest` -/

/-- A review comment parsed from the LLM's JSON (`lineNumber`,
`comment`). -/
structure DiffReviewComment where
  lineNumber : Int
  comment : String
deriving DecidableEq, Repr

/-- A JavaScript value as `reviewDiff` manipulates the result of
`generateJson`: the code only ever reads the `violations` property, so an
object is embedded by that one property — `objWith v` is an object whose
`violations` property holds `v`, `objWithout` one lacking the property. -/
inductive JsValue where
  | undefinedV
  | jsNull
  | bool (b : Bool)
  | num (n : Int)
  | str (s : String)
  | arr (elems : List DiffReviewComment)
  | objWith (violations : JsValue)
  | objWithout
deriving DecidableEq, Repr

/-- JavaScript truthiness. -/
def jsTruthy : JsValue → Bool
  | .undefinedV => false
  | .jsNull => false
  | .bool b => b
  | .num n => n != 0
  | .str s => s != ""
  | .arr _ => true
  | .objWith _ => true
  | .objWithout => true

/-- The JavaScript `!` operator: always a boolean. -/
def jsNot (v : JsValue) : JsValue := .bool (! jsTruthy v)

/-- JavaScript `Array.isArray`. -/
def arrayIsArray : JsValue → Bool
  | .arr _ => true
  | _ => false

/-- Optional chaining `r?.violations`: `undefined` on a nullish receiver
and on receivers without the property. -/
def optChainViolations : JsValue → JsValue
  | .objWith v => v
  | _ => .undefinedV

/-- Plain property access `r.violations`: a `TypeError` on a nullish
receiver, otherwise the property or `undefined`. -/
def propViolations : JsValue → Except Unit JsValue
  | .undefinedV => .error ()
  | .jsNull => .error ()
  | .objWith v => .ok v
  | _ => .ok .undefinedV

/-- The part of a `DiffReview` the checked properties mention: the
`comments` field, which the source assigns from `reviewComments.violations`
and therefore can hold any JavaScript value. -/
structure DiffReview where
  comments : JsValue
deriving DecidableEq, Repr

/-- Model of the tail of `GitLabCodeReview.reviewDiff` after the LLM call:
the guard `Array.isArray(!reviewComments?.violations)` decides the
null return, otherwise the review is built with
`comments := reviewComments.violations` (a `TypeError` on a nullish
response escapes to the caller).  The argument is the value
`generateJson` resolved with. -/
def reviewDiff (reviewComments : JsValue) : Except Unit (Option DiffReview) :=
  if arrayIsArray (jsNot (optChainViolations reviewComments)) then
    .ok none
  else
    match propViolations reviewComments with
    | .error e => .error e
    | .ok vs => .ok (some { comments := vs })

/-- The condition `reviewResult.comments && reviewResult.comments.length > 0`
guarding the comment-posting arm of the result loop: only arrays and
strings have a numeric `length`; for every other value the conjunction is
falsy (short-circuit on falsy values, `undefined > 0` otherwise). -/
def commentsNonempty : JsValue → Bool
  | .arr l => decide (0 < l.length)
  | .str s => decide (0 < s.length)
  | _ => false

/-- The merge-request fingerprint cache document: `lastUpdated`
(milliseconds) and the clean fingerprints (stored as an array, used as a
set). -/
structure CacheDoc where
  lastUpdated : Nat
  fingerprints : List String
deriving DecidableEq, Repr

/-- The default empty cache (`EMPTY_CACHE` in `codeReviewModel`). -/
def EMPTY_CACHE : CacheDoc := { lastUpdated := 0, fingerprints := [] }

/-- The backing store for one merge request's cache document. -/
abbrev CacheStore := Option CacheDoc

/-- Model of `getMergeRequestReviewCache`: the stored document, or the
empty cache when the document is absent.  (The source also falls back to
the empty cache on a shape-invalid document; the store here only holds
well-shaped documents.) -/
def getMergeRequestReviewCache (store : CacheStore) : CacheDoc :=
  store.getD EMPTY_CACHE

/-- Model of `updateMergeRequestReviewCache`: overwrite the document with
the given fingerprints and `lastUpdated := now`. -/
def updateMergeRequestReviewCache (fingerprints : List String) (now : Nat) : CacheStore :=
  some { lastUpdated := now, fingerprints := fingerprints }

/-- Set-insert on the working fingerprint list (`Set.add`). -/
def addFingerprint (l : List String) (fp : String) : List String :=
  if fp ∈ l then l else l ++ [fp]

/-- A review unit (diff × applicable rule) reduced to what the cache flow
reads: its fingerprint. -/
structure ReviewUnit where
  fingerprint : String
deriving DecidableEq, Repr

/-- What the LLM call of one review unit produced: either `generateJson`
rejected (transport error, unparseable output) or it resolved with a
JavaScript value. -/
inductive LlmOutcome where
  | thrown
  | val (v : JsValue)
deriving DecidableEq, Repr

/-- One unit's slot in `codeReviewResults`: `reviewDiff`'s review on
success, `none` when `reviewDiff` returned null or anything threw (the
`catch` arm of the mapping). -/
def runReviewUnit (outcome : LlmOutcome) : Option DiffReview :=
  match outcome with
  | .thrown => none
  | .val v =>
    match reviewDiff v with
    | .error _ => none
    | .ok r => r

/-- The result-handling loop over the fulfilled review results: a unit
with postable comments leaves the cache alone (its violations are posted
as discussions), any other unit marks its fingerprint clean in the
working set and flags the cache dirty. -/
def handleResults : List (ReviewUnit × DiffReview) → List String → Bool →
    List String × Bool
  | [], working, dirty => (working, dirty)
  | (u, r) :: rest, working, dirty =>
    if commentsNonempty r.comments then
      handleResults rest working dirty
    else
      handleResults rest (addFingerprint working u.fingerprint) true

/-- Outcome of one `reviewMergeRequest` run, projected to the checked
properties: which units were sent to the LLM, and the cache store after
the run. -/
structure ReviewRunOutcome where
  llmCalled : List ReviewUnit
  store : CacheStore
deriving DecidableEq, Repr

/-- The in-memory cache pre-filter of `reviewMergeRequest`: the review
units whose fingerprint is not already marked clean. -/
def pendingUnits (units : List ReviewUnit) (loadedCache : CacheDoc) : List ReviewUnit :=
  units.filter (fun u => u.fingerprint ∉ loadedCache.fingerprints)

/-- The fulfilled, non-null review results of the pending units, paired
with their unit. -/
def runResults (toProcess : List ReviewUnit) (oracle : ReviewUnit → LlmOutcome) :
    List (ReviewUnit × DiffReview) :=
  toProcess.filterMap (fun u => (runReviewUnit (oracle u)).map (fun r => (u, r)))

/-- Model of the cache flow of `GitLabCodeReview.reviewMergeRequest`:
load the cache, skip every unit whose fingerprint is already in it and
return early (with no cache write) when nothing is left; otherwise run
the LLM review on each remaining unit, handle the results, and write the
cache back (with `lastUpdated := now`) only when a fingerprint was
added.  `oracle` gives each unit's LLM outcome; the comment-posting arm
touches neither the LLM-call count nor the cache and is projected away. -/
def reviewMergeRequest (units : List ReviewUnit) (oracle : ReviewUnit → LlmOutcome)
    (store : CacheStore) (now : Nat) : ReviewRunOutcome :=
  let loadedCache := getMergeRequestReviewCache store
  let toProcess := pendingUnits units loadedCache
  if toProcess.isEmpty then
    { llmCalled := [], store := store }
  else
    let handled := handleResults (runResults toProcess oracle) loadedCache.fingerprints false
    if handled.2 then
      { llmCalled := toProcess, store := updateMergeRequestReviewCache handled.1 now }
    else
      { llmCalled := toProcess, store := store }

/-! ## Agent state store -/

/-- The running states of an agent (`AgentRunningState`). -/
inductive AgentRunningState where
  | agent
  | functions
  | workflow
  | child_agents
  | hitl_tool
  | hitl_feedback
  | hitl_threshold
  | hil
  | error
  | completed
  | shutdown
  | timeout
deriving DecidableEq, Repr

/-- The string a state is persisted as; Firestore compares and orders
state values as these strings. -/
def stateKey : AgentRunningState → String
  | .agent => "agent"
  | .functions => "functions"
  | .workflow => "workflow"
  | .child_agents => "child_agents"
  | .hitl_tool => "hitl_tool"
  | .hitl_feedback => "hitl_feedback"
  | .hitl_threshold => "hitl_threshold"
  | .hil => "hil"
  | .error => "error"
  | .completed => "completed"
  | .shutdown => "shutdown"
  | .timeout => "timeout"

/-- The terminal states excluded from `listRunning`. -/
def terminalStates : List AgentRunningState := [.completed, .shutdown, .timeout]

/-- Modelled from the spec: `isExecuting` is declared in
`#agent/agentContextTypes`, which is not part of the sources here (only
its callers and tests are).  Section 4.2 of the specification defines the
executing states as all states except `completed`, `shutdown` and
`timeout`. -/
def isExecuting (st : AgentRunningState) : Bool :=
  ! (st ∈ terminalStates)

/-- An agent context document as persisted in the `AgentContext`
collection, restricted to the fields the checked operations read; the
document id (the `agentId`) is the store key, and `rest` stands for the
remaining serialized fields. -/
structure AgentDoc where
  user : String
  state : AgentRunningState
  parentAgentId : Option String
  childAgents : List String
  lastUpdate : Nat
  rest : String
deriving DecidableEq, Repr

/-- The `AgentContext` collection: a list of agentId/document pairs. -/
abbrev AgentStore := List (String × AgentDoc)

/-- Model of `load(agentId)`: the document at that id, absent when there
is none (the source spreads `agentId` back over the data, so the key is
the identity). -/
def loadAgent (store : AgentStore) (agentId : String) : Option AgentDoc :=
  (store.find? (fun e => e.1 == agentId)).map (fun e => e.2)

/-- Model of `docRef.set(serialized)`: overwrite the document at the id,
appending a fresh one when the id is new. -/
def setAgentDoc : AgentStore → String → AgentDoc → AgentStore
  | [], agentId, doc => [(agentId, doc)]
  | e :: rest, agentId, doc =>
    if e.1 == agentId then (agentId, doc) :: rest
    else e :: setAgentDoc rest agentId doc

/-- An in-memory `AgentContext` as handed to `save`, restricted to the
fields the checked operations use. -/
structure AgentCtx where
  agentId : String
  user : String
  state : AgentRunningState
  parentAgentId : Option String
  childAgents : List String
  lastUpdate : Nat
  rest : String
deriving DecidableEq, Repr

/-- The document `save` writes: `serializeContext(state)` with
`lastUpdate` overwritten by the current time. -/
def serializeCtx (ctx : AgentCtx) (now : Nat) : AgentDoc where
  user := ctx.user
  state := ctx.state
  parentAgentId := ctx.parentAgentId
  childAgents := ctx.childAgents
  lastUpdate := now
  rest := ctx.rest

/-- Error surfaced by `save`: the parent of a child context is missing
(`ParentMissing` in the specification's terms; the transaction aborts
with nothing written). -/
inductive AgentSaveError where
  | parentMissing
deriving DecidableEq, Repr

/-- Model of `FirestoreAgentStateService.save`: with a `parentAgentId`, a
transaction reads the parent (failing when absent), adds the child id to
the parent's `childAgents` set — updating only that field and
`lastUpdate`, and only when the id was not already present — and then
writes the child document; without a parent, a single write. -/
def saveAgent (store : AgentStore) (ctx : AgentCtx) (now : Nat) :
    Except AgentSaveError AgentStore :=
  let serialized := serializeCtx ctx now
  match ctx.parentAgentId with
  | some p =>
    match loadAgent store p with
    | none => .error .parentMissing
    | some parent =>
      let store₁ :=
        if ctx.agentId ∈ parent.childAgents then store
        else
          setAgentDoc store p
            { parent with childAgents := parent.childAgents.eraseDups ++ [ctx.agentId],
                          lastUpdate := now }
      .ok (setAgentDoc store₁ ctx.agentId serialized)
  | none => .ok (setAgentDoc store ctx.agentId serialized)

/-- The comparison Firestore applies to `listRunning`'s results:
`state` ascending (as strings), then `lastUpdate` descending. -/
def runningLe (a b : String × AgentDoc) : Bool :=
  decide (stateKey a.2.state < stateKey b.2.state ∨
    (stateKey a.2.state = stateKey b.2.state ∧ b.2.lastUpdate ≤ a.2.lastUpdate))

/-- Model of `listRunning()`: the documents whose state is not terminal
(the `not-in` filter), ordered by `state` ascending then `lastUpdate`
descending. -/
def listRunning (store : AgentStore) : List (String × AgentDoc) :=
  (store.filter (fun e => ! (e.2.state ∈ terminalStates))).mergeSort runningLe

/-- The filter stage of `delete(ids)`: the loaded agents that are owned
by the current user, not executing and without a parent. -/
def deleteTargets (store : AgentStore) (userId : String) (ids : List String) :
    List (String × AgentDoc) :=
  (ids.filterMap (fun id => (loadAgent store id).map (fun d => (id, d)))).filter
    (fun e => e.2.user == userId && ! isExecuting e.2.state && e.2.parentAgentId.isNone)

/-- Model of `delete(ids)`: load the requested agents, keep those owned
by the current user, not executing and without a parent, and delete each
of them together with its listed children in one batch. -/
def deleteAgents (store : AgentStore) (userId : String) (ids : List String) : AgentStore :=
  (deleteTargets store userId ids).foldl (fun s e =>
    let s₁ := e.2.childAgents.foldl (fun s c => s.filter (fun d => d.1 != c)) s
    s₁.filter (fun d => d.1 != e.1)) store

/-! ## Composite fallback LLM -/

/-- One provider in `FastMediumLLM`'s ordered list, reduced to what the
fallback walk reads: whether it is configured, its input-token ceiling,
and what its `generateText` does on this request (`some r`: resolves with
`r`; `none`: rejects). -/
structure FallbackProvider where
  configured : Bool
  maxInputTokens : Nat
  response : Option String
deriving DecidableEq, Repr

/-- Error surfaced when the provider list is exhausted
(`AllProvidersFailed` in the specification's terms). -/
inductive FallbackError where
  | allProvidersFailed
deriving DecidableEq, Repr

/-- Model of `FastMediumLLM.generateTextFromMessages`: walk the providers
in order, skipping one that is not configured or whose `maxInputTokens`
the estimated prompt token count exceeds; otherwise attempt it,
continuing with the next provider on error; throw when the list is
exhausted.  `promptTokens` is the token count of the joined message
contents (the tokenizer is outside these sources). -/
def generateTextFromMessages : List FallbackProvider → Nat → Except FallbackError String
  | [], _ => .error .allProvidersFailed
  | p :: rest, promptTokens =>
    if ! p.configured then
      generateTextFromMessages rest promptTokens
    else if p.maxInputTokens < promptTokens then
      generateTextFromMessages rest promptTokens
    else
      match p.response with
      | some r => .ok r
      | none => generateTextFromMessages rest promptTokens

/-- A provider is skipped for this request: unconfigured, or the prompt
exceeds its token ceiling. -/
def providerSkipped (p : FallbackProvider) (promptTokens : Nat) : Prop :=
  p.configured = false ∨ p.maxInputTokens < promptTokens

/-- A provider is attempted for this request: configured and within its
token ceiling. -/
def providerAttempted (p : FallbackProvider) (promptTokens : Nat) : Prop :=
  p.configured = true ∧ promptTokens ≤ p.maxInputTokens

/-! ## Ambient user context -/

/-- A user, identified by id. -/
structure User where
  id : String
deriving DecidableEq, Repr

/-- The ambient bindings `currentUser()` consults: the user of the agent
bound in the agent context (if any), the user bound on the
AsyncLocalStorage by `runWithUser` (if any), the `AUTH` environment
variable (`none` when unset), and the single user returned by
`userService.getSingleUser()`. -/
structure UserContextEnv where
  agentBoundUser : Option User
  storeBoundUser : Option User
  authEnv : Option String
  singleUser : User
deriving DecidableEq, Repr

/-- Error surfaced by `currentUser()` when no binding exists outside
single-user mode (`NotBound` in the specification's terms). -/
inductive UserContextError where
  | notBound
deriving DecidableEq, Repr

/-- Model of `isSingleUser()`: true when `AUTH` is unset or falsy (the
empty string) or equal to `single_user`. -/
def isSingleUser (authEnv : Option String) : Bool :=
  match authEnv with
  | none => true
  | some s => s == "" || s == "single_user"

/-- Model of `currentUser()`: the agent's user when an agent binding is
present; otherwise the AsyncLocalStorage user; otherwise the single user
in single-user mode, and an error outside it. -/
def currentUser (env : UserContextEnv) : Except UserContextError User :=
  match env.agentBoundUser with
  | some u => .ok u
  | none =>
    match env.storeBoundUser with
    | some u => .ok u
    | none =>
      if isSingleUser env.authEnv then .ok env.singleUser
      else .error .notBound

/-! ## Helper lemmas: fallback LLM -/

/-- A provider that is skipped or whose call rejects is passed over. -/
theorem generate_cons_pass (p : FallbackProvider) (rest : List FallbackProvider) (t : Nat)
    (h : providerSkipped p t ∨ p.response = none) :
    generateTextFromMessages (p :: rest) t = generateTextFromMessages rest t := by
  by_cases hc : p.configured
  · by_cases ht : p.maxInputTokens < t
    · simp [generateTextFromMessages, hc, ht]
    · rcases h with h | h
      · rcases h with h | h
        · exact absurd h (by simp [hc])
        · exact absurd h ht
      · simp [generateTextFromMessages, hc, ht, h]
  · simp [generateTextFromMessages, hc]

/-- A configured provider within its token ceiling whose call resolves
ends the walk with its response. -/
theorem generate_cons_hit (p : FallbackProvider) (rest : List FallbackProvider) (t : Nat)
    (r : String) (hc : providerAttempted p t) (hr : p.response = some r) :
    generateTextFromMessages (p :: rest) t = .ok r := by
  obtain ⟨h1, h2⟩ := hc
  simp [generateTextFromMessages, h1, Nat.not_lt.mpr h2, hr]

/-- C5: the composite fallback LLM's generate walks its ordered provider
list: a provider is passed over when unconfigured, over the token limit,
or erroring; the response of the first attempted and succeeding provider
is returned, and the call fails with `AllProvidersFailed` exactly when
every provider was skipped or failed. -/
theorem fallback_generate_spec (ps : List FallbackProvider) (t : Nat) :
    (∀ r, generateTextFromMessages ps t = .ok r ↔
      ∃ l₁ p l₂, ps = l₁ ++ p :: l₂ ∧
        (∀ q ∈ l₁, providerSkipped q t ∨ q.response = none) ∧
        providerAttempted p t ∧ p.response = some r) ∧
    (generateTextFromMessages ps t = .error .allProvidersFailed ↔
      ∀ p ∈ ps, providerSkipped p t ∨ p.response = none) := by
  induction ps with
  | nil =>
    constructor
    · intro r
      constructor
      · intro h
        simp [generateTextFromMessages] at h
      · rintro ⟨l₁, p, l₂, habs, -⟩
        exact absurd habs (by simp)
    · simp [generateTextFromMessages]
  | cons p rest ih =>
    by_cases hpass : providerSkipped p t ∨ p.response = none
    · have heq := generate_cons_pass p rest t hpass
      constructor
      · intro r
        rw [heq]
        constructor
        · intro h
          obtain ⟨l₁, p', l₂, hsplit, hall, hatt, hresp⟩ := (ih.1 r).1 h
          refine ⟨p :: l₁, p', l₂, by rw [hsplit]; rfl, ?_, hatt, hresp⟩
          intro q hq
          rcases List.mem_cons.1 hq with hq | hq
          · exact hq ▸ hpass
          · exact hall q hq
        · rintro ⟨l₁, p', l₂, hsplit, hall, hatt, hresp⟩
          cases l₁ with
          | nil =>
            simp only [List.nil_append, List.cons.injEq] at hsplit
            obtain ⟨hp, -⟩ := hsplit
            subst hp
            rcases hpass with hskip | hnone
            · rcases hskip with hskip | hskip
              · exact absurd hatt.1 (by simp [hskip])
              · exact absurd hskip (Nat.not_lt.mpr hatt.2)
            · rw [hnone] at hresp
              exact absurd hresp (by simp)
          | cons q l₁' =>
            simp only [List.cons_append, List.cons.injEq] at hsplit
            obtain ⟨-, hrest⟩ := hsplit
            exact (ih.1 r).2 ⟨l₁', p', l₂, hrest,
              fun q' hq' => hall q' (List.mem_cons_of_mem _ hq'), hatt, hresp⟩
      · rw [heq]
        constructor
        · intro h q hq
          rcases List.mem_cons.1 hq with hq | hq
          · exact hq ▸ hpass
          · exact ih.2.1 h q hq
        · intro h
          exact ih.2.2 fun q hq => h q (List.mem_cons_of_mem _ hq)
    · push_neg at hpass
      obtain ⟨hnskip, hnresp⟩ := hpass
      have hatt : providerAttempted p t := by
        constructor
        · by_contra hc
          exact hnskip (Or.inl (by simpa using hc))
        · by_contra ht
          exact hnskip (Or.inr (Nat.not_le.mp ht))
      obtain ⟨r₀, hr₀⟩ := Option.ne_none_iff_exists'.mp hnresp
      have heq := generate_cons_hit p rest t r₀ hatt hr₀
      constructor
      · intro r
        rw [heq]
        constructor
        · intro h
          have : r₀ = r := by simpa using h
          exact ⟨[], p, rest, rfl, by simp, hatt, this ▸ hr₀⟩
        · rintro ⟨l₁, p', l₂, hsplit, hall, hatt', hresp⟩
          cases l₁ with
          | nil =>
            simp only [List.nil_append, List.cons.injEq] at hsplit
            obtain ⟨hp, -⟩ := hsplit
            subst hp
            rw [hr₀] at hresp
            simp only [Option.some.injEq] at hresp
            rw [hresp]
          | cons q l₁' =>
            simp only [List.cons_append, List.cons.injEq] at hsplit
            obtain ⟨hq, -⟩ := hsplit
            subst hq
            rcases hall p (List.mem_cons_self _ _) with hsk | hn
            · exact absurd hsk hnskip
            · exact absurd hn hnresp
      · rw [heq]
        constructor
        · intro h
          simp at h
        · intro h
          rcases h p (List.mem_cons_self _ _) with hsk | hn
          · exact absurd hsk hnskip
          · exact absurd hn hnresp

/-! ## Ambient user context: claim theorems -/

/-- C9: `currentUser()` returns the agent's user when an agent binding is
present; otherwise the `runWithUser` binding; otherwise, only in
single-user mode, the sole user; with no binding outside single-user
mode it fails instead of returning a user. -/
theorem currentUser_spec (env : UserContextEnv) :
    (∀ u, env.agentBoundUser = some u → currentUser env = .ok u) ∧
    (env.agentBoundUser = none → ∀ u, env.storeBoundUser = some u → currentUser env = .ok u) ∧
    (env.agentBoundUser = none → env.storeBoundUser = none →
      isSingleUser env.authEnv = true → currentUser env = .ok env.singleUser) ∧
    (env.agentBoundUser = none → env.storeBoundUser = none →
      isSingleUser env.authEnv = false → currentUser env = .error .notBound) := by
  refine ⟨?_, ?_, ?_, ?_⟩ <;> intros <;> simp [currentUser, *]

/-- Witness: the four cases of `currentUser_spec` at concrete
environments. -/
theorem currentUser_spec_witness :
    currentUser ⟨some ⟨"a"⟩, none, none, ⟨"s"⟩⟩ = .ok ⟨"a"⟩ ∧
    currentUser ⟨none, some ⟨"b"⟩, none, ⟨"s"⟩⟩ = .ok ⟨"b"⟩ ∧
    currentUser ⟨none, none, none, ⟨"s"⟩⟩ = .ok ⟨"s"⟩ ∧
    currentUser ⟨none, none, some "oauth", ⟨"s"⟩⟩ = .error .notBound :=
  ⟨(currentUser_spec _).1 _ rfl,
   (currentUser_spec _).2.1 rfl _ rfl,
   (currentUser_spec _).2.2.1 rfl rfl (by decide),
   (currentUser_spec _).2.2.2 rfl rfl (by decide)⟩

/-! ## Code review engine: claim theorems for the `reviewDiff` shape
check and the repeated-review cache flow -/

/-- C2: the guard `Array.isArray(!reviewComments?.violations)` tests
whether a boolean is an array, which never holds, so `reviewDiff` does
not return null on a response without a `violations` array; the review
flows on with `comments = undefined`, and since the posting guard
`comments && comments.length > 0` is then falsy, the run marks the
unit's fingerprint clean in the cache — the source contradicts its own
`Invalid code review` handling and the specification. -/
theorem reviewDiff_invalid_shape_bug :
    reviewDiff JsValue.objWithout = .ok (some { comments := JsValue.undefinedV }) ∧
    reviewDiff JsValue.objWithout ≠ .ok none ∧
    reviewMergeRequest [{ fingerprint := "fp" }] (fun _ => .val JsValue.objWithout) none 7
      = { llmCalled := [{ fingerprint := "fp" }],
          store := some { lastUpdated := 7, fingerprints := ["fp"] } } :=
  ⟨rfl, by
    intro h
    simp [reviewDiff, optChainViolations, jsNot, jsTruthy, arrayIsArray, propViolations] at h,
   rfl⟩

/-! Helper lemmas about the result-handling loop and the cache
pre-filter. -/

/-- Membership in the working set survives an insert. -/
theorem mem_addFingerprint (l : List String) (fp x : String) (h : x ∈ l) :
    x ∈ addFingerprint l fp := by
  unfold addFingerprint
  split
  · exact h
  · exact List.mem_append_left _ h

/-- An inserted fingerprint is in the working set. -/
theorem self_mem_addFingerprint (l : List String) (fp : String) :
    fp ∈ addFingerprint l fp := by
  unfold addFingerprint
  split
  · assumption
  · simp

/-- The result-handling loop only ever grows the working set. -/
theorem handleResults_mono (rs : List (ReviewUnit × DiffReview)) :
    ∀ working dirty x, x ∈ working → x ∈ (handleResults rs working dirty).1 := by
  induction rs with
  | nil => intro working dirty x hx; simpa [handleResults] using hx
  | cons hd tl ih =>
    intro working dirty x hx
    obtain ⟨u, r⟩ := hd
    simp only [handleResults]
    split
    · exact ih working dirty x hx
    · exact ih _ true x (mem_addFingerprint _ _ _ hx)

/-- A dirty flag stays set through the result-handling loop. -/
theorem handleResults_dirty (rs : List (ReviewUnit × DiffReview)) :
    ∀ working, (handleResults rs working true).2 = true := by
  induction rs with
  | nil => intro working; simp [handleResults]
  | cons hd tl ih =>
    intro working
    obtain ⟨u, r⟩ := hd
    simp only [handleResults]
    split
    · exact ih working
    · exact ih _

/-- The fingerprint of a result without postable comments ends up in the
working set. -/
theorem handleResults_clean_mem (rs : List (ReviewUnit × DiffReview)) :
    ∀ working dirty u r, (u, r) ∈ rs → commentsNonempty r.comments = false →
      u.fingerprint ∈ (handleResults rs working dirty).1 := by
  induction rs with
  | nil => intro working dirty u r h; exact absurd h (by simp)
  | cons hd tl ih =>
    intro working dirty u r hmem hclean
    obtain ⟨u', r'⟩ := hd
    rcases List.mem_cons.1 hmem with heq | htl
    · simp only [Prod.mk.injEq] at heq
      obtain ⟨hu, hr⟩ := heq
      subst hu
      subst hr
      simp only [handleResults, hclean]
      exact handleResults_mono tl _ true _ (self_mem_addFingerprint _ _)
    · simp only [handleResults]
      split
      · exact ih working dirty u r htl hclean
      · exact ih _ true u r htl hclean

/-- A result without postable comments marks the cache dirty. -/
theorem handleResults_dirty_of_clean (rs : List (ReviewUnit × DiffReview)) :
    ∀ working dirty u r, (u, r) ∈ rs → commentsNonempty r.comments = false →
      (handleResults rs working dirty).2 = true := by
  induction rs with
  | nil => intro working dirty u r h; exact absurd h (by simp)
  | cons hd tl ih =>
    intro working dirty u r hmem hclean
    obtain ⟨u', r'⟩ := hd
    rcases List.mem_cons.1 hmem with heq | htl
    · simp only [Prod.mk.injEq] at heq
      obtain ⟨hu, hr⟩ := heq
      subst hu
      subst hr
      simp only [handleResults, hclean]
      exact handleResults_dirty tl _
    · simp only [handleResults]
      split
      · exact ih working dirty u r htl hclean
      · exact ih _ true u r htl hclean

/-- When every unit's fingerprint is already cached, the run performs no
LLM call and does not touch the store. -/
theorem reviewMR_all_cached (units : List ReviewUnit) (oracle : ReviewUnit → LlmOutcome)
    (store : CacheStore) (now : Nat)
    (h : ∀ u ∈ units, u.fingerprint ∈ (getMergeRequestReviewCache store).fingerprints) :
    reviewMergeRequest units oracle store now = { llmCalled := [], store := store } := by
  have hnil : pendingUnits units (getMergeRequestReviewCache store) = [] := by
    unfold pendingUnits
    rw [List.filter_eq_nil_iff]
    intro u hu
    simpa using h u hu
  simp [reviewMergeRequest, hnil]

/-- After a run in which the LLM reported no violations on every unit,
every unit's fingerprint is in the stored cache. -/
theorem first_run_covers (units : List ReviewUnit) (oracle : ReviewUnit → LlmOutcome)
    (store₀ : CacheStore) (t₁ : Nat)
    (h1 : ∀ u ∈ units, oracle u = .val (.objWith (.arr []))) :
    ∀ u ∈ units, u.fingerprint ∈
      (getMergeRequestReviewCache (reviewMergeRequest units oracle store₀ t₁).store).fingerprints := by
  intro u hu
  unfold reviewMergeRequest
  cases hemp : (pendingUnits units (getMergeRequestReviewCache store₀)).isEmpty with
  | true =>
    simp only [hemp, if_true]
    have hnil := List.isEmpty_iff.mp hemp
    unfold pendingUnits at hnil
    rw [List.filter_eq_nil_iff] at hnil
    have := hnil u hu
    simpa using this
  | false =>
    by_cases hc : u.fingerprint ∈ (getMergeRequestReviewCache store₀).fingerprints
    · simp only [hemp, Bool.false_eq_true, if_false]
      split
      · simpa [getMergeRequestReviewCache, updateMergeRequestReviewCache] using
          handleResults_mono _ _ _ _ hc
      · exact hc
    · have hup : u ∈ pendingUnits units (getMergeRequestReviewCache store₀) := by
        unfold pendingUnits
        rw [List.mem_filter]
        exact ⟨hu, by simpa using hc⟩
      have hres : (u, ({ comments := JsValue.arr [] } : DiffReview)) ∈
          runResults (pendingUnits units (getMergeRequestReviewCache store₀)) oracle := by
        unfold runResults
        rw [List.mem_filterMap]
        refine ⟨u, hup, ?_⟩
        rw [h1 u hu]
        rfl
      have hclean : commentsNonempty (JsValue.arr []) = false := by decide
      have hdirty := handleResults_dirty_of_clean _
        (getMergeRequestReviewCache store₀).fingerprints false _ _ hres hclean
      simp only [hemp, Bool.false_eq_true, if_false, hdirty, if_true]
      simpa [getMergeRequestReviewCache, updateMergeRequestReviewCache] using
        handleResults_clean_mem _ _ false _ _ hres hclean

/-- C3 (amended): a second review with unchanged diffs and rules, after a
first review in which the LLM reported no violations on every unit,
performs zero LLM calls and does not write the cache document at all —
the stored fingerprints set and `lastUpdated` value are both unchanged. -/
theorem second_review_zero_llm_calls (units : List ReviewUnit)
    (oracle₁ oracle₂ : ReviewUnit → LlmOutcome) (store₀ : CacheStore) (t₁ t₂ : Nat)
    (h1 : ∀ u ∈ units, oracle₁ u = .val (.objWith (.arr []))) :
    reviewMergeRequest units oracle₂ (reviewMergeRequest units oracle₁ store₀ t₁).store t₂
      = { llmCalled := [],
          store := (reviewMergeRequest units oracle₁ store₀ t₁).store } :=
  reviewMR_all_cached _ _ _ _ (first_run_covers units oracle₁ store₀ t₁ h1)

/-- Witness: `second_review_zero_llm_calls` at a one-unit review whose
first run is clean. -/
theorem second_review_zero_llm_calls_witness :
    reviewMergeRequest [{ fingerprint := "f1" }] (fun _ => .thrown)
        (reviewMergeRequest [{ fingerprint := "f1" }]
          (fun _ => .val (.objWith (.arr []))) none 1).store 2
      = { llmCalled := [],
          store := (reviewMergeRequest [{ fingerprint := "f1" }]
            (fun _ => .val (.objWith (.arr []))) none 1).store } :=
  second_review_zero_llm_calls _ _ _ _ _ _ (by decide)

/-- C3 (counterexample): a fully cached second review returns before the
cache write, so the stored `lastUpdated` value stays at its old value
instead of being updated to the current time. -/
theorem second_review_counterexample :
    (reviewMergeRequest [{ fingerprint := "f" }] (fun _ => .thrown)
        (some { lastUpdated := 0, fingerprints := ["f"] }) 5).llmCalled = [] ∧
    (reviewMergeRequest [{ fingerprint := "f" }] (fun _ => .thrown)
        (some { lastUpdated := 0, fingerprints := ["f"] }) 5).store
      = some { lastUpdated := 0, fingerprints := ["f"] } ∧
    (0 : Nat) ≠ 5 :=
  ⟨rfl, rfl, by decide⟩

/-! ## Agent state store: claim theorems -/

/-- The `listRunning` comparison is transitive. -/
theorem runningLe_trans (a b c : String × AgentDoc)
    (hab : runningLe a b = true) (hbc : runningLe b c = true) : runningLe a c = true := by
  simp only [runningLe, decide_eq_true_eq] at *
  rcases hab with hab | ⟨hab, hab'⟩ <;> rcases hbc with hbc | ⟨hbc, hbc'⟩
  · exact Or.inl (lt_trans hab hbc)
  · exact Or.inl (hbc ▸ hab)
  · exact Or.inl (hab ▸ hbc)
  · exact Or.inr ⟨hab.trans hbc, le_trans hbc' hab'⟩

/-- The `listRunning` comparison is total. -/
theorem runningLe_total (a b : String × AgentDoc) :
    (runningLe a b || runningLe b a) = true := by
  simp only [runningLe, Bool.or_eq_true, decide_eq_true_eq]
  rcases lt_trichotomy (stateKey a.2.state) (stateKey b.2.state) with h | h | h
  · exact Or.inl (Or.inl h)
  · rcases Nat.le_total b.2.lastUpdate a.2.lastUpdate with h' | h'
    · exact Or.inl (Or.inr ⟨h, h'⟩)
    · exact Or.inr (Or.inr ⟨h.symm, h'⟩)
  · exact Or.inr (Or.inl h)

/-- C8: `listRunning()` returns exactly the stored contexts whose state
is not `completed`, `shutdown` or `timeout`, ordered by `state` ascending
then `lastUpdate` descending. -/
theorem listRunning_spec (store : AgentStore) :
    (listRunning store).Perm
      (store.filter (fun e => ! (e.2.state ∈ terminalStates))) ∧
    (∀ e, e ∈ listRunning store ↔ e ∈ store ∧ e.2.state ∉ terminalStates) ∧
    (listRunning store).Pairwise (fun a b => runningLe a b = true) := by
  refine ⟨List.mergeSort_perm _ _, ?_, ?_⟩
  · intro e
    unfold listRunning
    rw [List.mem_mergeSort, List.mem_filter]
    simp
  · exact List.sorted_mergeSort runningLe_trans runningLe_total _

/-- Removing a list of keys from the store removes exactly the entries
with those keys. -/
theorem mem_removeKeys (children : List String) :
    ∀ (s : AgentStore) (x : String × AgentDoc),
      x ∈ children.foldl (fun s c => s.filter (fun d => d.1 != c)) s ↔
        x ∈ s ∧ x.1 ∉ children := by
  induction children with
  | nil => intro s x; simp
  | cons c cs ih =>
    intro s x
    rw [List.foldl_cons, ih, List.mem_filter]
    constructor
    · rintro ⟨⟨hs, hne⟩, hnotin⟩
      refine ⟨hs, ?_⟩
      simp only [List.mem_cons, not_or]
      exact ⟨by simpa using hne, hnotin⟩
    · rintro ⟨hs, hnotin⟩
      simp only [List.mem_cons, not_or] at hnotin
      exact ⟨⟨hs, by simpa using hnotin.1⟩, hnotin.2⟩

/-- The delete batch over a target list removes exactly the targets' own
keys and their listed children. -/
theorem mem_deleteFold (targets : List (String × AgentDoc)) :
    ∀ (s : AgentStore) (x : String × AgentDoc),
      x ∈ targets.foldl (fun s e =>
          (e.2.childAgents.foldl (fun s c => s.filter (fun d => d.1 != c)) s).filter
            (fun d => d.1 != e.1)) s ↔
        x ∈ s ∧ ∀ t ∈ targets, x.1 ≠ t.1 ∧ x.1 ∉ t.2.childAgents := by
  induction targets with
  | nil => intro s x; simp
  | cons t ts ih =>
    intro s x
    rw [List.foldl_cons, ih, List.mem_filter, mem_removeKeys]
    constructor
    · rintro ⟨⟨⟨hs, hchild⟩, hkey⟩, hrest⟩
      refine ⟨hs, ?_⟩
      intro t' ht'
      rcases List.mem_cons.1 ht' with h | h
      · exact h ▸ ⟨by simpa using hkey, hchild⟩
      · exact hrest t' h
    · rintro ⟨hs, hall⟩
      have ht := hall t (List.mem_cons_self _ _)
      exact ⟨⟨⟨hs, ht.2⟩, by simpa using ht.1⟩,
        fun t' h => hall t' (List.mem_cons_of_mem _ h)⟩

/-- Membership in the delete target list, spelled out. -/
theorem mem_deleteTargets (store : AgentStore) (userId : String) (ids : List String)
    (id : String) (d : AgentDoc) :
    (id, d) ∈ deleteTargets store userId ids ↔
      id ∈ ids ∧ loadAgent store id = some d ∧ d.user = userId ∧
        isExecuting d.state = false ∧ d.parentAgentId = none := by
  unfold deleteTargets
  rw [List.mem_filter, List.mem_filterMap]
  constructor
  · rintro ⟨⟨a, ha, hmap⟩, hpred⟩
    rw [Option.map_eq_some'] at hmap
    obtain ⟨d', hd', heq⟩ := hmap
    simp only [Prod.mk.injEq] at heq
    obtain ⟨rfl, rfl⟩ := heq
    simp only [Bool.and_eq_true, beq_iff_eq, Bool.not_eq_eq_eq_not, Bool.not_true,
      Option.isNone_iff_eq_none] at hpred
    exact ⟨ha, hd', hpred.1.1, by simpa using hpred.1.2, hpred.2⟩
  · rintro ⟨hid, hload, huser, hexec, hpar⟩
    refine ⟨⟨id, hid, ?_⟩, ?_⟩
    · rw [hload]; rfl
    · simp [huser, hexec, hpar]

/-- The keys the specification's description of `delete(ids)` marks for
removal: an id that loads to an agent owned by the user, not executing
and parentless, or a listed child of such an agent. -/
def claimDeletedKey (store : AgentStore) (userId : String) (ids : List String)
    (k : String) : Prop :=
  ∃ id ∈ ids, ∃ d, loadAgent store id = some d ∧ d.user = userId ∧
    isExecuting d.state = false ∧ d.parentAgentId = none ∧
    (k = id ∨ k ∈ d.childAgents)

/-- C6 (amended): `delete(ids)` removes exactly the agents that are
owned by the current user, not executing and parentless, together with
their listed children — and nothing else; listed children are removed
regardless of their own state or owner. -/
theorem delete_agents_spec (store : AgentStore) (userId : String) (ids : List String) :
    ∀ e ∈ store,
      (e ∈ deleteAgents store userId ids ↔ ¬ claimDeletedKey store userId ids e.1) := by
  intro e he
  unfold deleteAgents
  rw [mem_deleteFold]
  constructor
  · rintro ⟨-, hall⟩ ⟨id, hid, d, hload, huser, hexec, hpar, hk⟩
    have ht : (id, d) ∈ deleteTargets store userId ids :=
      (mem_deleteTargets store userId ids id d).mpr ⟨hid, hload, huser, hexec, hpar⟩
    have := hall (id, d) ht
    rcases hk with hk | hk
    · exact this.1 hk
    · exact this.2 hk
  · intro hncl
    refine ⟨he, ?_⟩
    rintro ⟨tid, td⟩ ht
    obtain ⟨hid, hload, huser, hexec, hpar⟩ := (mem_deleteTargets store userId ids tid td).mp ht
    constructor
    · intro heq
      exact hncl ⟨tid, hid, td, hload, huser, hexec, hpar, Or.inl heq⟩
    · intro hmem
      exact hncl ⟨tid, hid, td, hload, huser, hexec, hpar, Or.inr hmem⟩

/-- Witness: `delete_agents_spec` at a two-document store, showing a
non-targeted agent survives the delete. -/
theorem delete_agents_spec_witness :
    (("B", ({ user := "v", state := .completed, parentAgentId := none, childAgents := [],
              lastUpdate := 0, rest := "" } : AgentDoc)) ∈
        ([("A", { user := "u", state := .completed, parentAgentId := none, childAgents := [],
                  lastUpdate := 0, rest := "" }),
          ("B", { user := "v", state := .completed, parentAgentId := none, childAgents := [],
                  lastUpdate := 0, rest := "" })] : AgentStore)) ∧
    ((("B", ({ user := "v", state := .completed, parentAgentId := none, childAgents := [],
               lastUpdate := 0, rest := "" } : AgentDoc)) ∈
        deleteAgents
          [("A", { user := "u", state := .completed, parentAgentId := none, childAgents := [],
                   lastUpdate := 0, rest := "" }),
           ("B", { user := "v", state := .completed, parentAgentId := none, childAgents := [],
                   lastUpdate := 0, rest := "" })] "u" ["A", "B"]) ↔
      ¬ claimDeletedKey
          [("A", { user := "u", state := .completed, parentAgentId := none, childAgents := [],
                   lastUpdate := 0, rest := "" }),
           ("B", { user := "v", state := .completed, parentAgentId := none, childAgents := [],
                   lastUpdate := 0, rest := "" })] "u" ["A", "B"] "B") :=
  ⟨by decide, delete_agents_spec _ _ _ _ (by decide)⟩

/-- C6 (counterexample): a completed parent owned by the calling user
lists an executing child; deleting the parent also removes that child,
so `delete` does remove an agent in an executing state. -/
theorem delete_agents_counterexample :
    isExecuting AgentRunningState.agent = true ∧
    loadAgent
      ([("P", { user := "u", state := .completed, parentAgentId := none,
                childAgents := ["C"], lastUpdate := 0, rest := "" }),
        ("C", { user := "u", state := .agent, parentAgentId := some "P",
                childAgents := [], lastUpdate := 0, rest := "" })] : AgentStore) "C"
      = some { user := "u", state := .agent, parentAgentId := some "P",
               childAgents := [], lastUpdate := 0, rest := "" } ∧
    loadAgent
      (deleteAgents
        [("P", { user := "u", state := .completed, parentAgentId := none,
                 childAgents := ["C"], lastUpdate := 0, rest := "" }),
         ("C", { user := "u", state := .agent, parentAgentId := some "P",
                 childAgents := [], lastUpdate := 0, rest := "" })] "u" ["P"]) "C"
      = none := by
  refine ⟨rfl, rfl, ?_⟩
  decide

/-- Writing a document makes it visible under its id. -/
theorem loadAgent_set_self (s : AgentStore) (k : String) (d : AgentDoc) :
    loadAgent (setAgentDoc s k d) k = some d := by
  induction s with
  | nil => simp [setAgentDoc, loadAgent]
  | cons e rest ih =>
    by_cases h : e.1 == k
    · simp [setAgentDoc, loadAgent, h]
    · simp only [setAgentDoc, h, Bool.false_eq_true, if_false]
      simpa [loadAgent, List.find?, h] using ih

/-- Writing a document leaves every other id unchanged. -/
theorem loadAgent_set_other (s : AgentStore) (k k' : String) (d : AgentDoc)
    (h : k' ≠ k) : loadAgent (setAgentDoc s k d) k' = loadAgent s k' := by
  have hkk : (k == k') = false := beq_eq_false_iff_ne.mpr (Ne.symm h)
  induction s with
  | nil => simp [setAgentDoc, loadAgent, List.find?, hkk]
  | cons e rest ih =>
    by_cases he : e.1 == k
    · have he' : e.1 = k := by simpa using he
      simp [setAgentDoc, he, loadAgent, List.find?, he', hkk]
    · simp only [setAgentDoc, he, Bool.false_eq_true, if_false]
      by_cases he2 : e.1 == k'
      · simp [loadAgent, List.find?, he2]
      · simp only [loadAgent, List.find?, he2, Bool.false_eq_true] at ih ⊢
        simpa [loadAgent, List.find?, he2] using ih

/-- C7 (amended): `save(ctx)` with a parent performs the transactional
two-write — it fails without writing when the parent is absent, and on
success the saved context is stored and its `agentId` is in its parent's
stored `childAgents`.  (The claim's global invariant over all stored
agents does not hold: the write of the child overwrites the child's own
`childAgents` with the in-memory value, see the counterexample.) -/
theorem save_agent_parent_link (store : AgentStore) (ctx : AgentCtx) (now : Nat) (p : String)
    (hp : ctx.parentAgentId = some p) (hne : ctx.agentId ≠ p) :
    (loadAgent store p = none → saveAgent store ctx now = .error .parentMissing) ∧
    (∀ parent, loadAgent store p = some parent →
      ∃ s', saveAgent store ctx now = .ok s' ∧
        loadAgent s' ctx.agentId = some (serializeCtx ctx now) ∧
        ∃ pd, loadAgent s' p = some pd ∧ ctx.agentId ∈ pd.childAgents) := by
  constructor
  · intro hnone
    simp [saveAgent, hp, hnone]
  · intro parent hpar
    by_cases hmem : ctx.agentId ∈ parent.childAgents
    · refine ⟨setAgentDoc store ctx.agentId (serializeCtx ctx now), ?_, ?_, parent, ?_, hmem⟩
      · simp [saveAgent, hp, hpar, hmem]
      · exact loadAgent_set_self _ _ _
      · rw [loadAgent_set_other _ _ _ _ (Ne.symm hne)]
        exact hpar
    · refine ⟨setAgentDoc
          (setAgentDoc store p
            { parent with childAgents := parent.childAgents.eraseDups ++ [ctx.agentId],
                          lastUpdate := now })
          ctx.agentId (serializeCtx ctx now), ?_, ?_,
        { parent with childAgents := parent.childAgents.eraseDups ++ [ctx.agentId],
                      lastUpdate := now }, ?_, ?_⟩
      · simp [saveAgent, hp, hpar, hmem]
      · exact loadAgent_set_self _ _ _
      · rw [loadAgent_set_other _ _ _ _ (Ne.symm hne)]
        exact loadAgent_set_self _ _ _
      · simp

/-- Witness: `save_agent_parent_link` at a one-document store holding the
parent. -/
theorem save_agent_parent_link_witness :
    ∃ s', saveAgent
        [("P", { user := "u", state := .agent, parentAgentId := none, childAgents := [],
                 lastUpdate := 0, rest := "" })]
        { agentId := "C", user := "u", state := .agent, parentAgentId := some "P",
          childAgents := [], lastUpdate := 0, rest := "" } 3 = .ok s' ∧
      loadAgent s' "C" = some (serializeCtx
        { agentId := "C", user := "u", state := .agent, parentAgentId := some "P",
          childAgents := [], lastUpdate := 0, rest := "" } 3) ∧
      ∃ pd, loadAgent s' "P" = some pd ∧ "C" ∈ pd.childAgents :=
  (save_agent_parent_link _ _ 3 "P" rfl (by decide)).2
    { user := "u", state := .agent, parentAgentId := none, childAgents := [],
      lastUpdate := 0, rest := "" } rfl

/-- C7 (counterexample): saving a context whose in-memory `childAgents`
is empty while the stored version of that agent has a child breaks the
claimed invariant: after the successful save, agent `X` still has
`parentAgentId = C`, but `X` is no longer in `C`'s stored
`childAgents`. -/
theorem save_agent_counterexample :
    saveAgent
        [("P", { user := "u", state := .completed, parentAgentId := none, childAgents := [],
                 lastUpdate := 0, rest := "" }),
         ("C", { user := "u", state := .completed, parentAgentId := none, childAgents := ["X"],
                 lastUpdate := 0, rest := "" }),
         ("X", { user := "u", state := .completed, parentAgentId := some "C", childAgents := [],
                 lastUpdate := 0, rest := "" })]
        { agentId := "C", user := "u", state := .completed, parentAgentId := some "P",
          childAgents := [], lastUpdate := 0, rest := "" } 5
      = .ok
        [("P", { user := "u", state := .completed, parentAgentId := none, childAgents := ["C"],
                 lastUpdate := 5, rest := "" }),
         ("C", { user := "u", state := .completed, parentAgentId := some "P", childAgents := [],
                 lastUpdate := 5, rest := "" }),
         ("X", { user := "u", state := .completed, parentAgentId := some "C", childAgents := [],
                 lastUpdate := 0, rest := "" })] ∧
    ¬ "X" ∈ ([] : List String) :=
  ⟨rfl, by decide⟩

/-! ## LLM call store: claim theorems -/

/-- A path has no document exactly when no entry carries it. -/
theorem getDoc_eq_none (s : LlmStore) (p : LlmDocPath) :
    getDoc s p = none ↔ ∀ e ∈ s, e.1 ≠ p := by
  unfold getDoc
  rw [Option.map_eq_none', List.find?_eq_none]
  constructor
  · intro h e he
    simpa using h e he
  · intro h e he
    simpa using h e he

/-- C10 (amended): `delete(llmCallId)` removes every stored document
whose `llmCallId` field matches, and only stored documents; when the
field query matches nothing, the document at the head path is removed as
well; and provided every document at the head path carries
`llmCallId = llmCallId`, a subsequent `getCall` returns null. -/
theorem delete_llmcall_spec (store : LlmStore) (id : String) :
    (∀ e ∈ store, e.2.llmCallId = some id → e ∉ deleteLlmCall store id) ∧
    (∀ e ∈ deleteLlmCall store id, e ∈ store) ∧
    (store.filter (fun e => e.2.llmCallId == some id) = [] →
      getDoc (deleteLlmCall store id) (.head id) = none) ∧
    ((∀ e ∈ store, e.1 = LlmDocPath.head id → e.2.llmCallId = some id) →
      getCall (deleteLlmCall store id) id = none) := by
  have hempty : ∀ (h : (store.filter (fun e => e.2.llmCallId == some id)).isEmpty = true),
      getDoc (deleteLlmCall store id) (.head id) = none := by
    intro h
    unfold deleteLlmCall
    rw [h, if_pos rfl]
    cases hh : getDoc store (.head id) with
    | none => exact hh
    | some d =>
      rw [getDoc_eq_none]
      intro e he
      have := List.mem_filter.1 he
      simpa using this.2
  refine ⟨?_, ?_, ?_, ?_⟩
  · intro e he hid hmem
    unfold deleteLlmCall at hmem
    by_cases h : (store.filter (fun e => e.2.llmCallId == some id)).isEmpty
    · have := List.isEmpty_iff.mp h
      rw [List.filter_eq_nil_iff] at this
      exact absurd (by simpa using hid) (this e he)
    · rw [if_neg (by simpa using h)] at hmem
      have := (List.mem_filter.1 hmem).2
      simp [hid] at this
  · intro e he
    unfold deleteLlmCall at he
    split at he
    · split at he
      · exact (List.mem_filter.1 he).1
      · exact he
    · exact (List.mem_filter.1 he).1
  · intro h
    exact hempty (by rw [h]; rfl)
  · intro hwf
    by_cases h : (store.filter (fun e => e.2.llmCallId == some id)).isEmpty
    · have hnone := hempty h
      unfold getCall
      rw [hnone]
    · have hnone : getDoc (deleteLlmCall store id) (.head id) = none := by
        unfold deleteLlmCall
        rw [if_neg (by simpa using h), getDoc_eq_none]
        intro e he hkey
        have hm := List.mem_filter.1 he
        have hfield := hwf e hm.1 hkey
        simp [hfield] at hm
      unfold getCall
      rw [hnone]

/-- Witness: `delete_llmcall_spec` at a one-document store — the head
document matching the field query is removed and `getCall` returns
null. -/
theorem delete_llmcall_spec_witness :
    ((LlmDocPath.head "A",
        ({ llmCallId := some "A", chunkIndex := none, chunkCount := some 0,
           messages := some [], base := none } : LlmDoc)) ∉
      deleteLlmCall
        [(LlmDocPath.head "A",
          { llmCallId := some "A", chunkIndex := none, chunkCount := some 0,
            messages := some [], base := none })] "A") ∧
    getCall (deleteLlmCall
        [(LlmDocPath.head "A",
          ({ llmCallId := some "A", chunkIndex := none, chunkCount := some 0,
             messages := some [], base := none } : LlmDoc))] "A") "A" = none :=
  ⟨(delete_llmcall_spec _ "A").1 _ (by decide) rfl,
   (delete_llmcall_spec _ "A").2.2.2 (by decide)⟩

/-- C10 (counterexample): a store whose head document carries a foreign
`llmCallId` field while another document matches the field query — the
batch removes only the matching document, the head survives, and
`getCall` still returns a record. -/
theorem delete_llmcall_counterexample :
    deleteLlmCall
        [(LlmDocPath.head "X",
          { llmCallId := some "Y", chunkIndex := none, chunkCount := none,
            messages := none, base := none }),
         (LlmDocPath.chunk "X" 1,
          { llmCallId := some "X", chunkIndex := some 1, chunkCount := none,
            messages := some [], base := none })] "X"
      = [(LlmDocPath.head "X",
          { llmCallId := some "Y", chunkIndex := none, chunkCount := none,
            messages := none, base := none })] ∧
    (getCall
        (deleteLlmCall
          [(LlmDocPath.head "X",
            { llmCallId := some "Y", chunkIndex := none, chunkCount := none,
              messages := none, base := none }),
           (LlmDocPath.chunk "X" 1,
            { llmCallId := some "X", chunkIndex := some 1, chunkCount := none,
              messages := some [], base := none })] "X") "X").isSome = true := by
  refine ⟨?_, ?_⟩ <;> decide

/-- The packing loop partitions its input: the concatenation of all
produced chunks extends the accumulated chunks by the current chunk and
the remaining messages. -/
theorem packChunksGo_flatten (id : String) (rest : List LlmMessage) :
    ∀ (idx : Nat) (current : List LlmMessage) (acc : List (Nat × List LlmMessage)),
      ((packChunksGo id rest idx current acc).map Prod.snd).flatten
        = ((acc.map Prod.snd).flatten) ++ current ++ rest := by
  induction rest with
  | nil =>
    intro idx current acc
    by_cases h : current.isEmpty
    · have hc : current = [] := List.isEmpty_iff.mp h
      simp [packChunksGo, h, hc]
    · simp [packChunksGo, h]
  | cons m rest' ih =>
    intro idx current acc
    simp only [packChunksGo]
    split
    · rw [ih]
      simp
    · rw [ih]
      simp

/-- The packing loop numbers its chunks consecutively from the starting
index. -/
theorem packChunksGo_indices (id : String) (rest : List LlmMessage) :
    ∀ (idx : Nat) (current : List LlmMessage) (acc : List (Nat × List LlmMessage)),
      ∃ k, (packChunksGo id rest idx current acc).map Prod.fst
        = acc.map Prod.fst ++ List.range' idx k := by
  induction rest with
  | nil =>
    intro idx current acc
    by_cases h : current.isEmpty
    · exact ⟨0, by simp [packChunksGo, h]⟩
    · exact ⟨1, by simp [packChunksGo, h]⟩
  | cons m rest' ih =>
    intro idx current acc
    simp only [packChunksGo]
    split
    · obtain ⟨k, hk⟩ := ih (idx + 1) [m] (acc ++ [(idx, current)])
      refine ⟨k + 1, ?_⟩
      rw [hk, List.range'_succ]
      simp
    · exact ih idx (current ++ [m]) acc

/-- The chunk indices of `packChunks` are exactly `1, ..., N` for `N` the
number of chunks. -/
theorem packChunks_indices (id : String) (messages : List LlmMessage) :
    (packChunks id messages).map Prod.fst
      = List.range' 1 (packChunks id messages).length := by
  obtain ⟨k, hk⟩ := packChunksGo_indices id messages 1 [] []
  have hlen : (packChunks id messages).length = k := by
    have := congrArg List.length hk
    simpa [packChunks] using this
  rw [hlen]
  simpa [packChunks] using hk

/-- The chunks of `packChunks` concatenate back to the packed messages. -/
theorem packChunks_flatten (id : String) (messages : List LlmMessage) :
    ((packChunks id messages).map Prod.snd).flatten = messages := by
  have := packChunksGo_flatten id messages 1 [] []
  simpa [packChunks] using this

/-- Writing to an absent path appends the document. -/
theorem setDoc_absent (s : LlmStore) (p : LlmDocPath) (d : LlmDoc) (merge : Bool)
    (h : getDoc s p = none) : setDoc s p d merge = s ++ [(p, d)] := by
  unfold setDoc
  rw [h]

/-- Batching the chunk documents onto a store that holds none of their
paths appends them in order. -/
theorem foldl_setChunks (id : String) (chunks : List (Nat × List LlmMessage)) :
    ∀ (s : LlmStore),
      (∀ c ∈ chunks, getDoc s (.chunk id c.1) = none) →
      (chunks.map Prod.fst).Nodup →
      chunks.foldl (fun s c => setDoc s (.chunk id c.1) (chunkDoc id c.1 c.2) false) s
        = s ++ chunks.map (fun c => (LlmDocPath.chunk id c.1, chunkDoc id c.1 c.2)) := by
  induction chunks with
  | nil => intro s _ _; simp
  | cons c cs ih =>
    intro s habs hnodup
    rw [List.foldl_cons, setDoc_absent _ _ _ _ (habs c (List.mem_cons_self _ _))]
    rw [List.map_cons, List.nodup_cons] at hnodup
    rw [ih _ ?_ hnodup.2]
    · simp
    · intro c' hc'
      rw [getDoc_eq_none]
      intro e he
      rcases List.mem_append.1 he with he | he
      · exact (getDoc_eq_none s _).mp (habs c' (List.mem_cons_of_mem _ hc')) e he
      · have : e = (LlmDocPath.chunk id c.1, chunkDoc id c.1 c.2) := by simpa using he
        rw [this]
        intro hkey
        simp only [LlmDocPath.chunk.injEq] at hkey
        exact hnodup.1 (hkey.2 ▸ List.mem_map_of_mem Prod.fst hc')

/-- The chunk documents the chunked write path batches, keyed by their
paths, in chunk order. -/
def chunkEntries (id : String) (messages : List LlmMessage) : LlmStore :=
  (packChunks id messages).map (fun c => (LlmDocPath.chunk id c.1, chunkDoc id c.1 c.2))

/-- No chunk document sits at a head path. -/
theorem getDoc_chunkEntries_head (id id' : String) (messages : List LlmMessage) :
    getDoc (chunkEntries id messages) (.head id') = none := by
  rw [getDoc_eq_none]
  intro e he
  unfold chunkEntries at he
  obtain ⟨c, hc, rfl⟩ := List.mem_map.1 he
  simp

/-- The chunked write path on an empty store: when the whole record is at
or over the ceiling and every message fits a chunk document, the batch
leaves exactly the chunk documents in order followed by the head
document carrying the chunk count. -/
theorem saveOrUpdate_chunked (id : String) (base : LlmCallBase) (messages : List LlmMessage)
    (merge : Bool)
    (hbig : MAX_DOC_SIZE ≤ headDocJsonSize base messages)
    (hfit : ∀ m ∈ messages, chunkDocJsonSize id 1 [m] ≤ MAX_DOC_SIZE) :
    saveOrUpdateLlmCall [] id base messages merge
      = .ok (chunkEntries id messages
          ++ [(LlmDocPath.head id, chunkedHeadDoc base (packChunks id messages).length)]) := by
  have hany : (messages.any fun m => decide (MAX_DOC_SIZE < chunkDocJsonSize id 1 [m])) = false := by
    rw [List.any_eq_false]
    intro m hm
    simpa using Nat.not_lt.mpr (hfit m hm)
  have hnodup : ((packChunks id messages).map Prod.fst).Nodup := by
    rw [packChunks_indices]
    exact List.nodup_range' _ _
  have hfold := foldl_setChunks id (packChunks id messages) [] (fun c _ => rfl) hnodup
  unfold saveOrUpdateLlmCall
  rw [if_neg (Nat.not_lt.mpr hbig), if_neg (by simp [hany]), hfold]
  rw [setDoc_absent _ _ _ _ (by simpa [chunkEntries] using getDoc_chunkEntries_head id id messages)]
  simp [chunkEntries]

/-- Reading back the store the chunked write path produced reconstructs
the original message sequence: the head is found, every chunk document
is selected by the `llmCallId`/`chunkIndex` query, the ascending
`chunkIndex` sort leaves the chunks in write order, and their
concatenation is the packed message list. -/
theorem getCall_chunked (id : String) (base : LlmCallBase) (messages : List LlmMessage)
    (hbid : base.llmCallId = id) :
    (getCall (chunkEntries id messages
        ++ [(LlmDocPath.head id, chunkedHeadDoc base (packChunks id messages).length)]) id).map
      (fun r => r.messages) = some messages := by
  have hhead : getDoc (chunkEntries id messages
      ++ [(LlmDocPath.head id, chunkedHeadDoc base (packChunks id messages).length)]) (.head id)
      = some (chunkedHeadDoc base (packChunks id messages).length) := by
    unfold getDoc
    rw [List.find?_append]
    have h1 : (chunkEntries id messages).find? (fun e => e.1 == LlmDocPath.head id) = none := by
      have h := getDoc_chunkEntries_head id id messages
      unfold getDoc at h
      exact Option.map_eq_none'.mp h
    rw [h1]
    simp [List.find?]
  by_cases hN : (packChunks id messages).length = 0
  · have hchunks : packChunks id messages = [] := List.length_eq_zero.mp hN
    have hmsgs : messages = [] := by
      have h := packChunks_flatten id messages
      rw [hchunks] at h
      simpa using h.symm
    simp only [getCall, hhead]
    rw [if_pos (by simp [chunkedHeadDoc, hN])]
    simp [chunkedHeadDoc, hmsgs]
  · simp only [getCall, hhead]
    rw [if_neg (by simp [chunkedHeadDoc, hN])]
    simp only [Option.map_some']
    congr 1
    have hcallid : (chunkedHeadDoc base (packChunks id messages).length).llmCallId.getD id = id := by
      simp [chunkedHeadDoc, hbid]
    rw [hcallid]
    have hfilter : ((chunkEntries id messages
        ++ [(LlmDocPath.head id, chunkedHeadDoc base (packChunks id messages).length)]).filter
          (fun e => e.2.llmCallId == some id && decide (0 < chunkIndexOf e.2)))
        = chunkEntries id messages := by
      rw [List.filter_append]
      have hhd : ([(LlmDocPath.head id, chunkedHeadDoc base (packChunks id messages).length)].filter
          (fun e => e.2.llmCallId == some id && decide (0 < chunkIndexOf e.2))) = [] := by
        simp [chunkedHeadDoc, chunkIndexOf]
      have hself : ((chunkEntries id messages).filter
          (fun e => e.2.llmCallId == some id && decide (0 < chunkIndexOf e.2)))
          = chunkEntries id messages := by
        rw [List.filter_eq_self]
        intro e he
        unfold chunkEntries at he
        obtain ⟨c, hc, rfl⟩ := List.mem_map.1 he
        have hidx : c.1 ∈ List.range' 1 (packChunks id messages).length := by
          rw [← packChunks_indices]
          exact List.mem_map_of_mem Prod.fst hc
        have := (List.mem_range'_1.mp hidx).1
        simp [chunkDoc, chunkIndexOf]
        omega
      rw [hhd, hself, List.append_nil]
    rw [hfilter]
    have hdocs : (chunkEntries id messages).map (fun e => e.2)
        = (packChunks id messages).map (fun c => chunkDoc id c.1 c.2) := by
      unfold chunkEntries
      rw [List.map_map]
      rfl
    rw [hdocs]
    have hpair : ((packChunks id messages).map (fun c => chunkDoc id c.1 c.2)).Pairwise
        (fun a b => (decide (chunkIndexOf a ≤ chunkIndexOf b)) = true) := by
      have hlt : ((packChunks id messages).map Prod.fst).Pairwise (fun a b => a < b) := by
        rw [packChunks_indices]
        exact List.pairwise_lt_range' _ _
      rw [List.pairwise_map] at hlt
      exact List.Pairwise.map _
        (fun a b h => by simp [chunkDoc, chunkIndexOf]; omega) hlt
    rw [List.mergeSort_of_sorted hpair]
    have hflat : (((packChunks id messages).map (fun c => chunkDoc id c.1 c.2)).flatMap
        (fun d => d.messages.getD [])) = messages := by
      rw [List.flatMap_def, List.map_map]
      have : ((fun d => d.messages.getD []) ∘ fun c : Nat × List LlmMessage =>
          chunkDoc id c.1 c.2) = Prod.snd := by
        funext c
        rfl
      rw [this]
      exact packChunks_flatten id messages
    rw [hflat]

/-- C1: for an `LlmCall` whose `llmCallId` keys the head document at its
own `id` and whose every message fits a chunk envelope,
`saveResponse` on an empty store succeeds and `getCall(call.id)` returns
a record whose `messages` are equal to the saved ones — both in the
single-document case and in the chunked case, where the concatenation of
the chunk documents in ascending `chunkIndex` order (which is what
`getCall` computes) reproduces the original sequence. -/
theorem saveResponse_getCall_roundtrip (call : LlmCall)
    (hid : call.llmCallId.getD call.id = call.id)
    (hfit : ∀ m ∈ call.messages, chunkDocJsonSize call.id 1 [m] ≤ MAX_DOC_SIZE) :
    ∃ store, saveResponse [] call = .ok store ∧
      (getCall store call.id).map (fun r => r.messages) = some call.messages := by
  unfold saveResponse
  rw [hid]
  by_cases hsize : headDocJsonSize
      { llmCallId := call.id, metaSize := call.metaSize, meta := call.meta }
      call.messages < MAX_DOC_SIZE
  · refine ⟨[(LlmDocPath.head call.id,
        singleHeadDoc { llmCallId := call.id, metaSize := call.metaSize, meta := call.meta }
          call.messages)], ?_, ?_⟩
    · unfold saveOrUpdateLlmCall
      rw [if_pos hsize]
      rfl
    · have hd : getDoc [(LlmDocPath.head call.id,
          singleHeadDoc { llmCallId := call.id, metaSize := call.metaSize, meta := call.meta }
            call.messages)] (.head call.id)
          = some (singleHeadDoc
              { llmCallId := call.id, metaSize := call.metaSize, meta := call.meta }
              call.messages) := by
        simp [getDoc, List.find?]
      simp only [getCall, hd]
      rw [if_pos (by simp [singleHeadDoc])]
      simp [singleHeadDoc]
  · refine ⟨_, saveOrUpdate_chunked call.id _ call.messages true (Nat.le_of_not_lt hsize) hfit,
      getCall_chunked call.id _ call.messages rfl⟩

/-- Witness: `saveResponse_getCall_roundtrip` at a two-message call. -/
theorem saveResponse_getCall_roundtrip_witness :
    ∃ store, saveResponse []
        { id := "id", llmCallId := none, metaSize := 3, meta := "",
          messages := [{ content := "a", size := 5 }, { content := "b", size := 6 }] }
        = .ok store ∧
      (getCall store "id").map (fun r => r.messages)
        = some [{ content := "a", size := 5 }, { content := "b", size := 6 }] :=
  saveResponse_getCall_roundtrip _ rfl (by decide)

/-- C4: when the whole record is at or over the document ceiling, a
single message whose chunk document is exactly `MAX_DOC_SIZE` succeeds
as one chunk, while one whose chunk document is one byte larger fails
with `MessageTooLarge`; the per-message check precedes the batched
writes, and the error aborts the write, so nothing is stored on
failure (the `Except` result carries no store). -/
theorem message_chunk_boundary (base : LlmCallBase) (m mBig : LlmMessage)
    (hfit : chunkDocJsonSize base.llmCallId 1 [m] = MAX_DOC_SIZE)
    (hbigmsg : chunkDocJsonSize base.llmCallId 1 [mBig] = MAX_DOC_SIZE + 1)
    (hhead : MAX_DOC_SIZE ≤ headDocJsonSize base [m])
    (hheadBig : MAX_DOC_SIZE ≤ headDocJsonSize base [mBig]) :
    saveOrUpdateLlmCall [] base.llmCallId base [m] true
      = .ok [(LlmDocPath.chunk base.llmCallId 1, chunkDoc base.llmCallId 1 [m]),
             (LlmDocPath.head base.llmCallId, chunkedHeadDoc base 1)] ∧
    ∀ store, saveOrUpdateLlmCall store base.llmCallId base [mBig] true
      = .error .messageTooLarge := by
  constructor
  · have hpack : packChunks base.llmCallId [m] = [(1, [m])] := by
      simp [packChunks, packChunksGo]
    have h := saveOrUpdate_chunked base.llmCallId base [m] true hhead
      (by intro m' hm'; rw [List.mem_singleton] at hm'; subst hm'; exact le_of_eq hfit)
    rw [h]
    simp [chunkEntries, hpack]
  · intro store
    unfold saveOrUpdateLlmCall
    rw [if_neg (Nat.not_lt.mpr hheadBig), if_pos (by simp [hbigmsg])]

/-- Witness: `message_chunk_boundary` with the id `id` — the chunk
envelope there is 47 bytes, so a message of serialized size 999953 fills
a chunk document to exactly `MAX_DOC_SIZE` and one of size 999954
overflows it by one byte. -/
theorem message_chunk_boundary_witness :
    chunkDocJsonSize "id" 1 [{ content := "x", size := 999953 }] = MAX_DOC_SIZE ∧
    chunkDocJsonSize "id" 1 [{ content := "y", size := 999954 }] = MAX_DOC_SIZE + 1 ∧
    saveOrUpdateLlmCall [] "id" { llmCallId := "id", metaSize := 50, meta := "" }
        [{ content := "y", size := 999954 }] true = .error .messageTooLarge :=
  ⟨by decide, by decide,
   (message_chunk_boundary { llmCallId := "id", metaSize := 50, meta := "" }
      { content := "x", size := 999953 } { content := "y", size := 999954 }
      (by decide) (by decide) (by decide) (by decide)).2 []⟩
